import Mathlib

/-!
Verification development for the texlog repository: a shallow embedding of
the lexer (src/lexer.rs), the source-position maps (src/text.rs), the parser
(src/parser.rs) and the log facade (src/log.rs), together with proofs and
refutations of the specified properties.

Strings are modelled as lists of characters; byte offsets coincide with
character offsets for the inputs considered (the Rust code indexes by byte,
the spec allows character offsets). Loops whose Rust counterparts advance a
cursor are modelled with an explicit fuel argument chosen large enough by
every caller; fuel exhaustion yields the same failure value that a Rust
panic is modelled by.
-/

namespace Texlog

/-! ## Data model: tokens (src/lexer.rs) -/

/-- Models the Rust enum TokenKind of src/lexer.rs. -/
inductive TokenKind where
  | leftParen
  | rightParen
  | exclamationMark
  | path (s : List Char)
  | word (s : List Char)
  | punctuation (c : Char)
  | newline
  | whitespace (s : List Char)
  | eof
deriving DecidableEq, Repr

/-- Models the Rust struct Token of src/lexer.rs: a kind plus the offset of
the token in the source. -/
structure Token where
  kind : TokenKind
  pos : Nat
deriving DecidableEq, Repr

/-! ## Character classes

Rust char::is_whitespace is the Unicode White_Space property; the explicit
code-point list below is that property. The lexer additionally excludes
the newline via Lexer::is_whitespace. -/

/-- Models Rust char::is_whitespace (the Unicode White_Space code points). -/
def rustIsWhitespace (c : Char) : Bool :=
  c.val = 0x09 || c.val = 0x0a || c.val = 0x0b || c.val = 0x0c || c.val = 0x0d ||
  c.val = 0x20 || c.val = 0x85 || c.val = 0xa0 || c.val = 0x1680 ||
  (0x2000 ≤ c.val && c.val ≤ 0x200a) ||
  c.val = 0x2028 || c.val = 0x2029 || c.val = 0x202f || c.val = 0x205f ||
  c.val = 0x3000

/-- Models Lexer::is_whitespace: whitespace other than the newline. -/
def isLexWhitespace (c : Char) : Bool :=
  rustIsWhitespace c && !(c = '\n')

/-- Models Lexer::is_word_char, i.e. Rust char::is_alphabetic. The TeX logs
this tool consumes are ASCII, so the ASCII alphabetic range is used. -/
def isWordChar (c : Char) : Bool :=
  c.isAlpha

/-! ## Lexer (src/lexer.rs) -/

/-- Models Lexer::at_path_start: a path starts at a slash, or at a dot
directly followed by a slash. -/
def atPathStart : List Char → Bool
  | '.' :: '/' :: _ => true
  | '/' :: _ => true
  | _ => false

/-- Models the first loop of Lexer::consume_path: while the cursor is at a
path start, consume one character into the path. -/
def pathStartLoop : List Char → List Char × List Char
  | [] => ([], [])
  | c :: rest =>
    if atPathStart (c :: rest) then
      let (a, b) := pathStartLoop rest
      (c :: a, b)
    else ([], c :: rest)

/-- Models the fixed marker table of Lexer::consume_path: the strings whose
appearance at the cursor terminates a path. -/
def pathMarkers : List (List Char) :=
  ["\nDictionary:".toList, "\nPackage:".toList, "\nFile:".toList,
   "\nLaTeX".toList, "\nDocument Class:".toList]

/-- Models the marker test inside Lexer::consume_path: does any marker
string start at the cursor. -/
def isMarkerHere (l : List Char) : Bool :=
  pathMarkers.any (fun s => s.isPrefixOf l)

/-- Models the main loop of Lexer::consume_path. Returns the consumed path
characters and the remaining input. A single newline whose successor is not
a newline is consumed without being recorded; the listed terminator
characters, the marker strings, remaining whitespace and the end of input
terminate the loop. -/
def pathBodyLoop : List Char → List Char × List Char
  | [] => ([], [])
  | c :: rest =>
    if c = '(' ∨ c = ')' ∨ c = '<' ∨ c = '>' ∨ c = '[' ∨ c = ']' ∨ c = '\\' then
      ([], c :: rest)
    else if isMarkerHere (c :: rest) then
      ([], c :: rest)
    else if c = '\n' ∧ rest.head? ≠ some '\n' then
      pathBodyLoop rest
    else if rustIsWhitespace c then
      ([], c :: rest)
    else
      let (a, b) := pathBodyLoop rest
      (c :: a, b)

/-- Models Lexer::consume_path: the leading path-start characters followed
by the main loop. -/
def consumePath (l : List Char) : List Char × List Char :=
  let (a, b) := pathStartLoop l
  let (a2, b2) := pathBodyLoop b
  (a ++ a2, b2)

/-- Models Lexer::next_token on a non-empty input: the character at the
cursor (first argument) and the rest of the input decide the token. Returns
the token and the remaining input. -/
def nextToken (c : Char) (rest : List Char) (pos : Nat) : Token × List Char :=
  if c = '(' then (⟨TokenKind.leftParen, pos⟩, rest)
  else if c = ')' then (⟨TokenKind.rightParen, pos⟩, rest)
  else if c = '!' then (⟨TokenKind.exclamationMark, pos⟩, rest)
  else if c = '\n' then (⟨TokenKind.newline, pos⟩, rest)
  else if isWordChar c then
    (⟨TokenKind.word ((c :: rest).takeWhile isWordChar), pos⟩,
      (c :: rest).dropWhile isWordChar)
  else if isLexWhitespace c then
    (⟨TokenKind.whitespace ((c :: rest).takeWhile isLexWhitespace), pos⟩,
      (c :: rest).dropWhile isLexWhitespace)
  else if atPathStart (c :: rest) then
    (⟨TokenKind.path (consumePath (c :: rest)).1, pos⟩, (consumePath (c :: rest)).2)
  else (⟨TokenKind.punctuation c, pos⟩, rest)

/-- Fueled driver for the lexer iterator: emits tokens until the input is
exhausted, then the single EOF token. Every step consumes at least one
character, so fuel equal to the input length is always sufficient; the
fuel-exhaustion branch is unreachable from tokenize. -/
def tokenizeFuel : Nat → List Char → Nat → List Token
  | _, [], pos => [⟨TokenKind.eof, pos⟩]
  | 0, _ :: _, _ => []
  | fuel + 1, c :: rest, pos =>
    let (t, rest') := nextToken c rest pos
    t :: tokenizeFuel fuel rest' (pos + (1 + (rest.length - rest'.length)))

/-- Models the Rust function tokenize of src/lexer.rs. -/
def tokenize (l : List Char) : List Token :=
  tokenizeFuel l.length l 0

/-- Modelled from the spec: the textual rendering of a token
(Token::to_string, whose Display implementation is not under src/). The
spec token table gives each kind its literal text; structural characters
render as themselves, runs render as their contents, and the EOF sentinel
renders as the empty text. This agrees with the explicit strings that
Parser::parse_node appends for each kind. -/
def TokenKind.render : TokenKind → List Char
  | TokenKind.leftParen => ['(']
  | TokenKind.rightParen => [')']
  | TokenKind.exclamationMark => ['!']
  | TokenKind.path s => s
  | TokenKind.word s => s
  | TokenKind.punctuation c => [c]
  | TokenKind.newline => ['\n']
  | TokenKind.whitespace s => s
  | TokenKind.eof => []

/-- The concatenation of the textual renderings of the tokens of an input,
the terminal EOF excluded. -/
def concatRenderings (l : List Char) : List Char :=
  (((tokenize l).filter (fun t => !(t.kind = TokenKind.eof))).map
    (fun t => t.kind.render)).flatten

/-! ## Source positions (src/text.rs) -/

/-- Models the loop of SourceText::row_col: walk the prefix of the text
before the index, counting rows and remembering the offset just past the
last newline. -/
def rowColLoop : List Char → Nat → Nat → Nat → Nat × Nat
  | [], _, row, lastLineStart => (row, lastLineStart)
  | c :: rest, i, row, lastLineStart =>
    if c = '\n' then rowColLoop rest (i + 1) (row + 1) (i + 1)
    else rowColLoop rest (i + 1) row lastLineStart

/-- Models SourceText::row_col of src/text.rs. -/
def row_col (text : List Char) (index : Nat) : Nat × Nat :=
  let (row, lastLineStart) := rowColLoop (text.take index) 0 1 0
  (row, index - lastLineStart + 1)

/-- Models the nested loops of SourceText::index: advance a shared iterator
past the given number of newlines, counting the characters consumed. -/
def skipRows : List Char → Nat → Nat
  | _, 0 => 0
  | [], _ + 1 => 0
  | c :: rest, n + 1 =>
    if c = '\n' then 1 + skipRows rest n
    else 1 + skipRows rest (n + 1)

/-- Models SourceText::index of src/text.rs: clamp row and column to at
least one, skip the rows before the requested one, add the column. -/
def index (text : List Char) (row col : Nat) : Nat :=
  skipRows text (max 1 row - 1) + (max 1 col - 1)

/-- Offset just past the last newline of a list (zero when the list has no
newline); the value the row_col loop tracks. -/
def lastStart : List Char → Nat
  | [] => 0
  | c :: rest =>
    if rest.count '\n' ≠ 0 then 1 + lastStart rest
    else if c = '\n' then 1 else 0

theorem lastStart_le (l : List Char) : lastStart l ≤ l.length := by
  induction l with
  | nil => simp [lastStart]
  | cons c rest ih =>
    simp only [lastStart, List.length_cons]
    split
    · omega
    · split <;> omega

theorem count_nl_cons (c : Char) (rest : List Char) :
    (c :: rest).count '\n' = rest.count '\n' + (if c = '\n' then 1 else 0) := by
  by_cases hc : c = '\n' <;> simp [List.count_cons, hc]

theorem lastStart_eq_zero (l : List Char) (h : l.count '\n' = 0) :
    lastStart l = 0 := by
  induction l with
  | nil => rfl
  | cons c rest ih =>
    rw [count_nl_cons] at h
    have h1 : rest.count '\n' = 0 := by omega
    have h2 : ¬(c = '\n') := by
      intro hc
      rw [if_pos hc] at h
      omega
    simp [lastStart, h1, h2]

theorem rowColLoop_eq (l : List Char) :
    ∀ i row lls, rowColLoop l i row lls =
      (row + l.count '\n', if l.count '\n' = 0 then lls else i + lastStart l) := by
  induction l with
  | nil => intro i row lls; simp [rowColLoop]
  | cons c rest ih =>
    intro i row lls
    by_cases hc : c = '\n'
    · have hstep : rowColLoop (c :: rest) i row lls =
          rowColLoop rest (i + 1) (row + 1) (i + 1) := by
        simp [rowColLoop, hc]
      rw [hstep, ih, count_nl_cons, if_pos hc]
      by_cases hr : rest.count '\n' = 0
      · have hls : lastStart (c :: rest) = 1 := by simp [lastStart, hr, hc]
        rw [hls, hr, if_pos rfl, if_neg (by omega)]
      · have hls : lastStart (c :: rest) = 1 + lastStart rest := by
          simp [lastStart, hr]
        rw [hls, if_neg hr, if_neg (by omega)]
        simp only [Prod.mk.injEq]
        omega
    · have hstep : rowColLoop (c :: rest) i row lls =
          rowColLoop rest (i + 1) row lls := by
        simp [rowColLoop, hc]
      rw [hstep, ih, count_nl_cons, if_neg hc]
      by_cases hr : rest.count '\n' = 0
      · have hls : lastStart (c :: rest) = 0 := by simp [lastStart, hr, hc]
        rw [hls, hr, if_pos rfl, if_pos (by omega)]
      · have hls : lastStart (c :: rest) = 1 + lastStart rest := by
          simp [lastStart, hr]
        rw [hls, if_neg hr, if_neg (by omega)]
        simp only [Prod.mk.injEq]
        omega

theorem skipRows_take (text : List Char) :
    ∀ i, i ≤ text.length →
      skipRows text ((text.take i).count '\n') = lastStart (text.take i) := by
  induction text with
  | nil => intro i _; simp [skipRows, lastStart]
  | cons c rest ih =>
    intro i hi
    match i with
    | 0 => simp [skipRows, lastStart]
    | j + 1 =>
      have hj : j ≤ rest.length := by simpa using hi
      rw [List.take_succ_cons, count_nl_cons]
      by_cases hc : c = '\n'
      · rw [if_pos hc]
        have hstep : skipRows (c :: rest) ((rest.take j).count '\n' + 1) =
            1 + skipRows rest ((rest.take j).count '\n') := by
          simp [skipRows, hc]
        rw [hstep, ih j hj]
        by_cases hr : (rest.take j).count '\n' = 0
        · have hls : lastStart (c :: rest.take j) = 1 := by simp [lastStart, hr, hc]
          rw [hls, lastStart_eq_zero _ hr]
        · have hls : lastStart (c :: rest.take j) = 1 + lastStart (rest.take j) := by
            simp [lastStart, hr]
          rw [hls]
      · rw [if_neg hc]
        by_cases hr : (rest.take j).count '\n' = 0
        · have hls : lastStart (c :: rest.take j) = 0 := by simp [lastStart, hr, hc]
          rw [hls, hr]
          rfl
        · have hls : lastStart (c :: rest.take j) = 1 + lastStart (rest.take j) := by
            simp [lastStart, hr]
          rcases hn : (rest.take j).count '\n' with _ | m
          · omega
          · have h2 := ih j hj
            rw [hn] at h2
            have hstep : skipRows (c :: rest) (m + 1 + 0) =
                1 + skipRows rest (m + 1) := by
              simp [skipRows, hc]
            rw [hstep, h2, hls]

/-- C7: for every source text and every offset at most the text length, the
row and column computed by row_col map back to the same offset through
index. -/
theorem index_row_col_round_trip (text : List Char) (i : Nat)
    (h : i ≤ text.length) :
    index text (row_col text i).1 (row_col text i).2 = i := by
  have hlen : (text.take i).length = i := by
    simp only [List.length_take]
    omega
  have hL : lastStart (text.take i) ≤ i := by
    have := lastStart_le (text.take i)
    omega
  have hrc : row_col text i = (1 + (text.take i).count '\n',
      i - lastStart (text.take i) + 1) := by
    unfold row_col
    rw [rowColLoop_eq]
    by_cases hr : (text.take i).count '\n' = 0
    · simp [hr, lastStart_eq_zero _ hr]
    · simp [hr]
  rw [hrc]
  unfold index
  have h1 : max 1 (1 + (text.take i).count '\n') - 1 = (text.take i).count '\n' := by
    omega
  have h2 : max 1 (i - lastStart (text.take i) + 1) - 1 =
      i - lastStart (text.take i) := by
    omega
  rw [h1, h2, skipRows_take text i h]
  omega

/-- Witness for C7 at a concrete text and offset. -/
theorem index_row_col_round_trip_witness :
    4 ≤ ("ab\ncd".toList).length ∧
      index "ab\ncd".toList (row_col "ab\ncd".toList 4).1
        (row_col "ab\ncd".toList 4).2 = 4 :=
  ⟨by decide, index_row_col_round_trip "ab\ncd".toList 4 (by decide)⟩

/-! ## Token completeness (claim C2) -/

theorem pathStartLoop_append (l : List Char) :
    (pathStartLoop l).1 ++ (pathStartLoop l).2 = l := by
  induction l with
  | nil => rfl
  | cons c rest ih =>
    by_cases hs : atPathStart (c :: rest)
    · rcases hp : pathStartLoop rest with ⟨a, b⟩
      rw [hp] at ih
      simp only [pathStartLoop, if_pos hs, hp]
      simpa using ih
    · simp [pathStartLoop, hs]

theorem pathBodyLoop_spec (l : List Char) :
    ∃ cs, cs ++ (pathBodyLoop l).2 = l ∧ (pathBodyLoop l).1.Sublist cs ∧
      (pathBodyLoop l).1.filter (fun x => !(x = '\n')) =
        cs.filter (fun x => !(x = '\n')) := by
  induction l with
  | nil => exact ⟨[], by simp [pathBodyLoop]⟩
  | cons c rest ih =>
    by_cases h1 : c = '(' ∨ c = ')' ∨ c = '<' ∨ c = '>' ∨ c = '[' ∨ c = ']' ∨ c = '\\'
    · refine ⟨[], ?_⟩
      simp [pathBodyLoop, h1]
    · by_cases h2 : isMarkerHere (c :: rest)
      · refine ⟨[], ?_⟩
        simp [pathBodyLoop, h1, h2]
      · by_cases h3 : c = '\n' ∧ rest.head? ≠ some '\n'
        · obtain ⟨cs, hcs, hsub, hfil⟩ := ih
          refine ⟨c :: cs, ?_, ?_, ?_⟩
          · simp only [pathBodyLoop, if_neg h1, if_neg h2, if_pos h3]
            simpa using hcs
          · simp only [pathBodyLoop, if_neg h1, if_neg h2, if_pos h3]
            exact hsub.trans (List.sublist_cons_self c cs)
          · simp only [pathBodyLoop, if_neg h1, if_neg h2, if_pos h3]
            rw [hfil]
            have : (c :: cs).filter (fun x => !(x = '\n')) =
                cs.filter (fun x => !(x = '\n')) := by
              simp [List.filter_cons, h3.1]
            rw [this]
        · by_cases h4 : rustIsWhitespace c
          · refine ⟨[], ?_⟩
            simp [pathBodyLoop, h1, h2, h3, h4]
          · obtain ⟨cs, hcs, hsub, hfil⟩ := ih
            rcases hp : pathBodyLoop rest with ⟨a, b⟩
            rw [hp] at hcs hsub hfil
            refine ⟨c :: cs, ?_, ?_, ?_⟩
            · simp only [pathBodyLoop, if_neg h1, if_neg h2, if_neg h3, if_neg h4,
                hp]
              simpa using hcs
            · simp only [pathBodyLoop, if_neg h1, if_neg h2, if_neg h3, if_neg h4,
                hp]
              exact hsub.cons₂ c
            · simp only [pathBodyLoop, if_neg h1, if_neg h2, if_neg h3, if_neg h4,
                hp]
              by_cases hcnl : c = '\n'
              · simp [List.filter_cons, hcnl, hfil]
              · simp [List.filter_cons, hcnl, hfil]

theorem nextToken_single_spec (c : Char) (rest : List Char) (pos : Nat)
    (h1 : (nextToken c rest pos).1.kind.render = [c])
    (h2 : (nextToken c rest pos).2 = rest) :
    ∃ cs, cs ≠ [] ∧ cs ++ (nextToken c rest pos).2 = c :: rest ∧
      ((nextToken c rest pos).1.kind.render).Sublist cs ∧
      ((nextToken c rest pos).1.kind.render).filter (fun x => !(x = '\n')) =
        cs.filter (fun x => !(x = '\n')) := by
  refine ⟨[c], by simp, ?_, ?_, ?_⟩
  · rw [h2]
    rfl
  · rw [h1]
  · rw [h1]

theorem nextToken_spec (c : Char) (rest : List Char) (pos : Nat) :
    ∃ cs, cs ≠ [] ∧ cs ++ (nextToken c rest pos).2 = c :: rest ∧
      ((nextToken c rest pos).1.kind.render).Sublist cs ∧
      ((nextToken c rest pos).1.kind.render).filter (fun x => !(x = '\n')) =
        cs.filter (fun x => !(x = '\n')) := by
  by_cases hlp : c = '('
  · exact nextToken_single_spec c rest pos
      (by simp [nextToken, hlp, TokenKind.render]) (by simp [nextToken, hlp])
  · by_cases hrp : c = ')'
    · exact nextToken_single_spec c rest pos
        (by simp [nextToken, hlp, hrp, TokenKind.render])
        (by simp [nextToken, hlp, hrp])
    · by_cases hex : c = '!'
      · exact nextToken_single_spec c rest pos
          (by simp [nextToken, hlp, hrp, hex, TokenKind.render])
          (by simp [nextToken, hlp, hrp, hex])
      · by_cases hnl : c = '\n'
        · exact nextToken_single_spec c rest pos
            (by simp [nextToken, hlp, hrp, hex, hnl, TokenKind.render])
            (by simp [nextToken, hlp, hrp, hex, hnl])
        · by_cases hw : isWordChar c
          · refine ⟨(c :: rest).takeWhile isWordChar, ?_, ?_, ?_, ?_⟩
            · simp [List.takeWhile_cons, hw]
            · simp only [nextToken, if_neg hlp, if_neg hrp, if_neg hex, if_neg hnl,
                if_pos hw]
              exact List.takeWhile_append_dropWhile _ _
            · simp only [nextToken, if_neg hlp, if_neg hrp, if_neg hex, if_neg hnl,
                if_pos hw, TokenKind.render]
              exact List.Sublist.refl _
            · simp only [nextToken, if_neg hlp, if_neg hrp, if_neg hex, if_neg hnl,
                if_pos hw, TokenKind.render]
          · by_cases hls : isLexWhitespace c
            · refine ⟨(c :: rest).takeWhile isLexWhitespace, ?_, ?_, ?_, ?_⟩
              · simp [List.takeWhile_cons, hls]
              · simp only [nextToken, if_neg hlp, if_neg hrp, if_neg hex,
                  if_neg hnl, if_neg hw, if_pos hls]
                exact List.takeWhile_append_dropWhile _ _
              · simp only [nextToken, if_neg hlp, if_neg hrp, if_neg hex,
                  if_neg hnl, if_neg hw, if_pos hls, TokenKind.render]
                exact List.Sublist.refl _
              · simp only [nextToken, if_neg hlp, if_neg hrp, if_neg hex,
                  if_neg hnl, if_neg hw, if_pos hls, TokenKind.render]
            · by_cases hps : atPathStart (c :: rest)
              · rcases hq : pathStartLoop (c :: rest) with ⟨a1, b1⟩
                obtain ⟨cs2, hcs2, hsub2, hfil2⟩ := pathBodyLoop_spec b1
                rcases hb : pathBodyLoop b1 with ⟨a2, b2⟩
                rw [hb] at hcs2 hsub2 hfil2
                have ha1 : a1 ≠ [] := by
                  have : pathStartLoop (c :: rest) =
                      (c :: (pathStartLoop rest).1, (pathStartLoop rest).2) := by
                    rcases hr : pathStartLoop rest with ⟨x, y⟩
                    simp [pathStartLoop, hps, hr]
                  rw [this] at hq
                  intro hcon
                  rw [← (Prod.mk.injEq _ _ _ _).mp hq |>.1] at hcon
                  exact List.cons_ne_nil _ _ hcon
                have happ : a1 ++ b1 = c :: rest := by
                  have := pathStartLoop_append (c :: rest)
                  rw [hq] at this
                  exact this
                refine ⟨a1 ++ cs2, ?_, ?_, ?_, ?_⟩
                · simp [ha1]
                · simp only [nextToken, if_neg hlp, if_neg hrp, if_neg hex,
                    if_neg hnl, if_neg hw, if_neg hls, if_pos hps, consumePath,
                    hq, hb]
                  rw [List.append_assoc, hcs2, happ]
                · simp only [nextToken, if_neg hlp, if_neg hrp, if_neg hex,
                    if_neg hnl, if_neg hw, if_neg hls, if_pos hps, consumePath,
                    hq, hb, TokenKind.render]
                  exact (List.Sublist.refl a1).append hsub2
                · simp only [nextToken, if_neg hlp, if_neg hrp, if_neg hex,
                    if_neg hnl, if_neg hw, if_neg hls, if_pos hps, consumePath,
                    hq, hb, TokenKind.render]
                  rw [List.filter_append, List.filter_append, hfil2]
              · exact nextToken_single_spec c rest pos
                  (by simp [nextToken, hlp, hrp, hex, hnl, hw, hls, hps,
                    TokenKind.render])
                  (by simp [nextToken, hlp, hrp, hex, hnl, hw, hls, hps])

theorem nextToken_rest_le (c : Char) (rest : List Char) (pos : Nat) :
    (nextToken c rest pos).2.length ≤ rest.length := by
  obtain ⟨cs, hne, happ, _, _⟩ := nextToken_spec c rest pos
  have := congrArg List.length happ
  simp only [List.length_append, List.length_cons] at this
  match cs, hne with
  | _ :: _, _ =>
    simp only [List.length_cons] at this
    omega

theorem tokenizeFuel_spec : ∀ fuel (l : List Char) (pos : Nat), l.length ≤ fuel →
    (((tokenizeFuel fuel l pos).map (fun t => t.kind.render)).flatten).Sublist l ∧
      (((tokenizeFuel fuel l pos).map
          (fun t => t.kind.render)).flatten).filter (fun x => !(x = '\n')) =
        l.filter (fun x => !(x = '\n')) := by
  intro fuel
  induction fuel with
  | zero =>
    intro l pos h
    match l with
    | [] => simp [tokenizeFuel, TokenKind.render]
    | c :: rest => simp at h
  | succ f ih =>
    intro l pos h
    match l with
    | [] => simp [tokenizeFuel, TokenKind.render]
    | c :: rest =>
      obtain ⟨cs, hne, happ, hsub, hfil⟩ := nextToken_spec c rest pos
      rcases hnt : nextToken c rest pos with ⟨t, rest'⟩
      rw [hnt] at happ hsub hfil
      have hlen : rest'.length ≤ f := by
        have h1 := nextToken_rest_le c rest pos
        rw [hnt] at h1
        have h2 : rest'.length ≤ rest.length := h1
        simp only [List.length_cons] at h
        omega
      obtain ⟨ihsub, ihfil⟩ := ih rest' (pos + (1 + (rest.length - rest'.length)))
        hlen
      have hunf : tokenizeFuel (f + 1) (c :: rest) pos =
          t :: tokenizeFuel f rest' (pos + (1 + (rest.length - rest'.length))) := by
        simp [tokenizeFuel, hnt]
      rw [hunf]
      simp only [List.map_cons, List.flatten_cons]
      constructor
      · rw [← happ]
        exact hsub.append ihsub
      · rw [List.filter_append, hfil, ihfil, ← happ, List.filter_append]

theorem flatten_render_filter_eof (ts : List Token) :
    (((ts.filter (fun t => !(t.kind = TokenKind.eof))).map
        (fun t => t.kind.render)).flatten) =
      ((ts.map (fun t => t.kind.render)).flatten) := by
  induction ts with
  | nil => rfl
  | cons t rest ih =>
    by_cases he : t.kind = TokenKind.eof
    · rw [List.filter_cons, if_neg (by simp [he]), ih]
      simp only [List.map_cons, List.flatten_cons]
      rw [he]
      rfl
    · simp [List.filter_cons, he, ih]

/-- C2 (amended): the concatenation of the textual renderings of the token
stream (the terminal EOF excluded) is the input text with the newlines
silently consumed inside wrapped Path tokens deleted: it is a sublist of
the input that agrees with the input on every character other than the
newline. In particular it equals the input whenever no path is wrapped
across a line break. -/
theorem token_concat_sublist (l : List Char) :
    (concatRenderings l).Sublist l ∧
      (concatRenderings l).filter (fun x => !(x = '\n')) =
        l.filter (fun x => !(x = '\n')) := by
  have h := tokenizeFuel_spec l.length l 0 le_rfl
  unfold concatRenderings tokenize
  rw [flatten_render_filter_eof]
  exact h

/-- C2 counterexample: a path wrapped across a single newline renders
without that newline, so the concatenation differs from the input. -/
theorem token_concat_counterexample :
    concatRenderings "/a\nb".toList = "/ab".toList ∧
      ¬ concatRenderings "/a\nb".toList = "/a\nb".toList := by
  constructor
  · rfl
  · decide

/-! ## Path termination and the exclamation mark (claim C3) -/

theorem isMarkerHere_cons_ne (c : Char) (l : List Char) (hc : ¬ c = '\n') :
    isMarkerHere (c :: l) = false := by
  have hpm : pathMarkers =
      ['\n' :: "Dictionary:".toList, '\n' :: "Package:".toList,
       '\n' :: "File:".toList, '\n' :: "LaTeX".toList,
       '\n' :: "Document Class:".toList] := rfl
  have hb : ('\n' == c) = false := by
    simp only [beq_eq_false_iff_ne, ne_eq]
    intro h
    exact hc h.symm
  simp [isMarkerHere, hpm, List.isPrefixOf, hb]

theorem isMarkerHere_nl_bang (l : List Char) :
    isMarkerHere ('\n' :: '!' :: l) = false := by
  have hpm : pathMarkers =
      ['\n' :: 'D' :: "ictionary:".toList, '\n' :: 'P' :: "ackage:".toList,
       '\n' :: 'F' :: "ile:".toList, '\n' :: 'L' :: "aTeX".toList,
       '\n' :: 'D' :: "ocument Class:".toList] := rfl
  have d1 : ('D' == '!') = false := by decide
  have d2 : ('P' == '!') = false := by decide
  have d3 : ('F' == '!') = false := by decide
  have d4 : ('L' == '!') = false := by decide
  simp [isMarkerHere, hpm, List.isPrefixOf, d1, d2, d3, d4]

/-- C3 (amended): during path consumption the exclamation mark is not a
terminator: it is consumed into the path like any other ordinary character,
and the marker set contains no newline-exclamation marker, so a newline
followed by an exclamation mark is silently dropped and consumption
continues through the exclamation mark. -/
theorem bang_not_path_terminator :
    (∀ rest : List Char, pathBodyLoop ('!' :: rest) =
      ('!' :: (pathBodyLoop rest).1, (pathBodyLoop rest).2)) ∧
    (∀ rest : List Char, pathBodyLoop ('\n' :: '!' :: rest) =
      pathBodyLoop ('!' :: rest)) := by
  constructor
  · intro rest
    rcases hp : pathBodyLoop rest with ⟨a, b⟩
    simp only [pathBodyLoop, hp]
    rw [if_neg (by decide),
      if_neg (by rw [isMarkerHere_cons_ne '!' rest (by decide)]; simp),
      if_neg (by intro h; exact absurd h.1 (by decide)),
      if_neg (by decide)]
  · intro rest
    simp only [pathBodyLoop]
    rw [if_neg (by decide), if_neg (by rw [isMarkerHere_nl_bang]; simp),
      if_pos (by constructor <;> simp)]

/-- C3 counterexample: in the input "/a\n! b" the lexer glues the newline
away and absorbs the exclamation mark into the path token, producing the
path "/a!"; the claimed termination before the exclamation mark does not
happen. -/
theorem path_bang_eval :
    (tokenize "/a\n! b".toList).map Token.kind =
      [TokenKind.path "/a!".toList, TokenKind.whitespace " ".toList,
       TokenKind.word "b".toList, TokenKind.eof] ∧
      '!' ∈ "/a!".toList := by
  constructor
  · rfl
  · decide

/-! ## Parser data model (src/parser.rs) -/

/-- Models the Rust enum TexDiagnosticKind. -/
inductive TexDiagnosticKind where
  | font
  | package (name : List Char)
  | underfullHbox
  | overfullHbox
  | pdfLatex
  | genericError (title : List Char)
deriving DecidableEq, Repr

/-- Models the Rust struct TexDiagnostic. -/
structure TexDiagnostic where
  kind : TexDiagnosticKind
  message : List Char
deriving DecidableEq, Repr

/-- Models the Rust struct Node of src/parser.rs: a file-scope tree node. -/
structure Node where
  file : List Char
  messages : List Char
  start_pos : Nat
  end_pos : Nat
  calls : List Node
  diagnostics : List TexDiagnostic
deriving Repr

/-- Models the Rust struct Log of src/log.rs. -/
structure Log where
  info : List Char
  source : List Char
  root_node : Node
deriving Repr

/-! ## Parser cursor primitives (src/parser.rs)

The token stream produced by tokenize is never empty (it always ends with
the EOF token); on an empty stream the Rust primitives panic, modelled here
by a default token that no caller ever sees. -/

def defaultToken : Token := ⟨TokenKind.eof, 0⟩

/-- Models Parser::peak: the index offset from the cursor is clamped into
the valid range. -/
def peakTok (tokens : List Token) (cursor : Nat) (off : Int) : Token :=
  tokens.getD (max 0 (min ((cursor : Int) + off) ((tokens.length : Int) - 1))).toNat
    defaultToken

/-- Models Parser::current: the cursor clamped into the valid range. -/
def currentTok (tokens : List Token) (cursor : Nat) : Token :=
  tokens.getD (min cursor (tokens.length - 1)) defaultToken

/-- Models Parser::consume: return the token at the cursor and advance.
Consuming past the end of the stream trips a debug assertion in the Rust
code, modelled as failure. -/
def consumeTok (tokens : List Token) (cursor : Nat) : Option (Token × Nat) :=
  if cursor < tokens.length then some (tokens.getD cursor defaultToken, cursor + 1)
  else none

/-- Models Rust str::trim (Unicode whitespace stripped from both ends). -/
def trimText (l : List Char) : List Char :=
  ((l.dropWhile rustIsWhitespace).reverse.dropWhile rustIsWhitespace).reverse

/-- Concatenated renderings of the token slice from index a (inclusive) to
index b (exclusive), as Rust does with tokens[a..b] and to_string. -/
def sliceRender (tokens : List Token) (a b : Nat) : List Char :=
  (((tokens.drop a).take (b - a)).map (fun t => t.kind.render)).flatten

/-! ## Diagnostic message consumption (Parser::consume_diagnostic_message) -/

/-- Models the loop of Parser::consume_diagnostic_message. Returns the end
cursor: at an unconsumed RightParen seen at paren level zero, or just past
the first Newline whose successor is also a Newline. The fuel only bounds
the recursion; every caller passes the token-stream length, which always
suffices because each iteration consumes a token. -/
def consumeDiagMsgLoop (tokens : List Token) : Nat → Nat → Nat → Option Nat
  | 0, _, _ => none
  | fuel + 1, cursor, parenLevel =>
    match (currentTok tokens cursor).kind with
    | TokenKind.leftParen =>
      if cursor < tokens.length then
        consumeDiagMsgLoop tokens fuel (cursor + 1) (parenLevel + 1)
      else none
    | TokenKind.rightParen =>
      if 0 < parenLevel then
        if cursor < tokens.length then
          consumeDiagMsgLoop tokens fuel (cursor + 1) (parenLevel - 1)
        else none
      else some cursor
    | TokenKind.newline =>
      if (peakTok tokens cursor 1).kind = TokenKind.newline then
        if cursor < tokens.length then some (cursor + 1) else none
      else
        if cursor < tokens.length then
          consumeDiagMsgLoop tokens fuel (cursor + 1) parenLevel
        else none
    | _ =>
      if cursor < tokens.length then
        consumeDiagMsgLoop tokens fuel (cursor + 1) parenLevel
      else none

/-- Models Parser::consume_diagnostic_message: the trimmed concatenation of
the renderings of the consumed tokens, together with the final cursor. -/
def consumeDiagnosticMessage (tokens : List Token) (cursor : Nat) :
    Option (List Char × Nat) :=
  match consumeDiagMsgLoop tokens (tokens.length + 1) cursor 0 with
  | none => none
  | some e => some (trimText (sliceRender tokens cursor e), e)

/-- Models the title loop of the GenericError branch of
Parser::consume_diag_if_diag: scan to the end of the current line. -/
def titleLoop (tokens : List Token) : Nat → Nat → Option Nat
  | 0, _ => none
  | fuel + 1, cursor =>
    match (currentTok tokens cursor).kind with
    | TokenKind.newline => some cursor
    | TokenKind.eof => some cursor
    | _ =>
      if cursor < tokens.length then titleLoop tokens fuel (cursor + 1)
      else none

/-- Models the backward walk of the GenericError branch: step back until
the previous token is a Path, an EOF, or the second of two Newlines. A
backward step from cursor zero underflows in Rust, modelled as failure. -/
def diagBackLoop (tokens : List Token) : Nat → Nat → Option Nat
  | 0, _ => none
  | fuel + 1, cursor =>
    match (peakTok tokens cursor (-1)).kind with
    | TokenKind.newline =>
      if (peakTok tokens cursor (-2)).kind = TokenKind.newline then some cursor
      else
        match cursor with
        | 0 => none
        | _ + 1 => diagBackLoop tokens fuel (cursor - 1)
    | TokenKind.eof => some cursor
    | TokenKind.path _ => some cursor
    | _ =>
      match cursor with
      | 0 => none
      | _ + 1 => diagBackLoop tokens fuel (cursor - 1)

/-- Models Parser::consume_diag_if_diag. The outer none models a panic; a
result of (none, cursor) means no diagnostic was recognised and the cursor
is unchanged; (some d, c) is a recognised diagnostic with the cursor moved
past its message. -/
def consumeDiagIfDiag (tokens : List Token) (cursor : Nat) :
    Option (Option TexDiagnostic × Nat) :=
  if (peakTok tokens cursor (-1)).kind ≠ TokenKind.newline then
    some (none, cursor)
  else
    match (currentTok tokens cursor).kind with
    | TokenKind.word w =>
      if w = "pdfTeX".toList then
        if (peakTok tokens cursor 2).kind = TokenKind.word "warning".toList then
          if (peakTok tokens cursor 3).kind = TokenKind.punctuation ':' then
            match consumeDiagnosticMessage tokens cursor with
            | none => none
            | some (m, c) => some (some ⟨TexDiagnosticKind.pdfLatex, m⟩, c)
          else some (none, cursor)
        else some (none, cursor)
      else if w = "LaTeX".toList then
        if (peakTok tokens cursor 2).kind = TokenKind.word "Font".toList then
          if (peakTok tokens cursor 4).kind = TokenKind.word "Warning".toList then
            if (peakTok tokens cursor 5).kind = TokenKind.punctuation ':' then
              match consumeDiagnosticMessage tokens cursor with
              | none => none
              | some (m, c) => some (some ⟨TexDiagnosticKind.font, m⟩, c)
            else some (none, cursor)
          else some (none, cursor)
        else some (none, cursor)
      else if w = "Overfull".toList then
        if (peakTok tokens cursor 2).kind = TokenKind.punctuation '\\' then
          if (peakTok tokens cursor 3).kind = TokenKind.word "hbox".toList then
            match consumeDiagnosticMessage tokens cursor with
            | none => none
            | some (m, c) => some (some ⟨TexDiagnosticKind.overfullHbox, m⟩, c)
          else some (none, cursor)
        else some (none, cursor)
      else if w = "Underfull".toList then
        if (peakTok tokens cursor 2).kind = TokenKind.punctuation '\\' then
          if (peakTok tokens cursor 3).kind = TokenKind.word "hbox".toList then
            match consumeDiagnosticMessage tokens cursor with
            | none => none
            | some (m, c) => some (some ⟨TexDiagnosticKind.underfullHbox, m⟩, c)
          else some (none, cursor)
        else some (none, cursor)
      else if w = "Package".toList then
        match (peakTok tokens cursor 2).kind with
        | TokenKind.word name =>
          if (peakTok tokens cursor 4).kind = TokenKind.word "Warning".toList then
            if (peakTok tokens cursor 5).kind = TokenKind.punctuation ':' then
              match consumeDiagnosticMessage tokens cursor with
              | none => none
              | some (m, c) => some (some ⟨TexDiagnosticKind.package name, m⟩, c)
            else some (none, cursor)
          else some (none, cursor)
        | _ => some (none, cursor)
      else some (none, cursor)
    | TokenKind.exclamationMark =>
      if cursor < tokens.length then
        match titleLoop tokens (tokens.length + 1) (cursor + 1) with
        | none => none
        | some e =>
          if cursor + 2 ≤ e then
            match diagBackLoop tokens (cursor + 1) cursor with
            | none => none
            | some m =>
              match consumeDiagnosticMessage tokens m with
              | none => none
              | some (msg, c) =>
                some (some ⟨TexDiagnosticKind.genericError
                  (sliceRender tokens (cursor + 2) e), msg⟩, c)
          else none
      else none
    | _ => some (none, cursor)

/-! ## Node parsing (Parser::parse_node)

Parser::parse_node is a prologue followed by a loop; the loop recurses into
parse_node for child scopes and the diagnostic recogniser may move the
cursor backwards, so the recursion is driven by an explicit fuel. The two
mutually recursive pieces are packaged as one fuel-indexed function over a
call descriptor. -/

/-- Call descriptor for parseRun: either entering parse_node at a cursor,
or continuing its accumulation loop with the state built so far. -/
inductive PCall where
  | node (cursor : Nat)
  | loop (cursor : Nat) (startPos : Nat) (file : List Char)
      (messages : List Char) (calls : List Node)
      (diagnostics : List TexDiagnostic) (unclosed : Nat)

/-- Appends a recognised diagnostic to the list, as the if-let push at the
top of the parse_node loop does. -/
def pushDiag (diagnostics : List TexDiagnostic) :
    Option TexDiagnostic → List TexDiagnostic
  | some d => diagnostics ++ [d]
  | none => diagnostics

/-- The file read for a node: the path string when the token after the
opening paren is a Path, the literal no-path text otherwise. -/
def fileOf : TokenKind → List Char
  | TokenKind.path p => p
  | _ => "no path...".toList

/-- Models Parser::parse_node (the node case is the prologue: record the
position, consume the LeftParen, read the file name without consuming it;
the loop case is the accumulation loop). -/
def parseRun (tokens : List Token) : Nat → PCall → Option (Node × Nat)
  | 0, _ => none
  | fuel + 1, PCall.node cursor =>
    match consumeTok tokens cursor with
    | none => none
    | some (t, c1) =>
      if t.kind = TokenKind.leftParen then
        parseRun tokens fuel
          (PCall.loop c1 (currentTok tokens cursor).pos
            (fileOf (currentTok tokens c1).kind) [] [] [] 0)
      else none
  | fuel + 1, PCall.loop cursor startPos file messages calls diagnostics unclosed =>
    match consumeDiagIfDiag tokens cursor with
    | none => none
    | some (od, c2) =>
      match (currentTok tokens c2).kind with
      | TokenKind.leftParen =>
        match (peakTok tokens c2 1).kind with
        | TokenKind.path _ =>
          match parseRun tokens fuel (PCall.node c2) with
          | none => none
          | some (child, c3) =>
            parseRun tokens fuel
              (PCall.loop c3 startPos file messages (calls ++ [child])
                (pushDiag diagnostics od) unclosed)
        | _ =>
          match consumeTok tokens c2 with
          | none => none
          | some (_, c3) =>
            parseRun tokens fuel
              (PCall.loop c3 startPos file (messages ++ ['(']) calls
                (pushDiag diagnostics od) (unclosed + 1))
      | TokenKind.rightParen =>
        if 0 < unclosed then
          match consumeTok tokens c2 with
          | none => none
          | some (_, c3) =>
            parseRun tokens fuel
              (PCall.loop c3 startPos file (messages ++ [')']) calls
                (pushDiag diagnostics od) (unclosed - 1))
        else
          match consumeTok tokens c2 with
          | none => none
          | some (endTok, c3) =>
            some (⟨file, messages, startPos, endTok.pos, calls,
              pushDiag diagnostics od⟩, c3)
      | TokenKind.path p =>
        match consumeTok tokens c2 with
        | none => none
        | some (_, c3) =>
          parseRun tokens fuel
            (PCall.loop c3 startPos file (messages ++ p) calls
              (pushDiag diagnostics od) unclosed)
      | TokenKind.word w =>
        match consumeTok tokens c2 with
        | none => none
        | some (_, c3) =>
          parseRun tokens fuel
            (PCall.loop c3 startPos file (messages ++ w) calls
              (pushDiag diagnostics od) unclosed)
      | TokenKind.whitespace w =>
        match consumeTok tokens c2 with
        | none => none
        | some (_, c3) =>
          parseRun tokens fuel
            (PCall.loop c3 startPos file (messages ++ w) calls
              (pushDiag diagnostics od) unclosed)
      | TokenKind.exclamationMark =>
        match consumeTok tokens c2 with
        | none => none
        | some (_, c3) =>
          parseRun tokens fuel
            (PCall.loop c3 startPos file (messages ++ ['!']) calls
              (pushDiag diagnostics od) unclosed)
      | TokenKind.punctuation ch =>
        match consumeTok tokens c2 with
        | none => none
        | some (_, c3) =>
          parseRun tokens fuel
            (PCall.loop c3 startPos file (messages ++ [ch]) calls
              (pushDiag diagnostics od) unclosed)
      | TokenKind.newline =>
        match consumeTok tokens c2 with
        | none => none
        | some (_, c3) =>
          parseRun tokens fuel
            (PCall.loop c3 startPos file (messages ++ ['\n']) calls
              (pushDiag diagnostics od) unclosed)
      | TokenKind.eof => none

/-- Models Parser::parse_node: run the prologue-plus-loop at a cursor. -/
def parseNode (tokens : List Token) (fuel cursor : Nat) : Option (Node × Nat) :=
  parseRun tokens fuel (PCall.node cursor)

/-- Models the top-level loop of Parser::parse: accumulate the prelude into
info until a LeftParen directly followed by a Path, and fail on EOF (the
Rust code hits a todo panic there). The separate Path arm of the Rust match
appends the path text itself, which coincides with the generic rendering,
so it is covered by the catch-all arm here. -/
def parseTopLoop (tokens : List Token) : Nat → Nat → List Char →
    Option (List Char × Nat)
  | 0, _, _ => none
  | fuel + 1, cursor, info =>
    match (currentTok tokens cursor).kind with
    | TokenKind.leftParen =>
      match (peakTok tokens cursor 1).kind with
      | TokenKind.path _ => some (info, cursor)
      | _ =>
        match consumeTok tokens cursor with
        | none => none
        | some (_, c1) => parseTopLoop tokens fuel c1 (info ++ ['('])
    | TokenKind.eof => none
    | k =>
      match consumeTok tokens cursor with
      | none => none
      | some (_, c1) => parseTopLoop tokens fuel c1 (info ++ k.render)

/-- Models Parser::parse: prelude accumulation followed by the root node. -/
def parse (tokens : List Token) (fuel : Nat) (source : List Char) : Option Log :=
  match parseTopLoop tokens (tokens.length + 1) 0 [] with
  | none => none
  | some (info, c) =>
    match parseRun tokens fuel (PCall.node c) with
    | none => none
    | some (root, _) => some ⟨info, source, root⟩

/-- Models parse_source of src/parser.rs. -/
def parseSource (text : List Char) (fuel : Nat) : Option Log :=
  parse (tokenize text) fuel text

/-! ## Log facade (src/log.rs) -/

/-- Models Log::trace_from_node: descend into the first child whose range
contains the index, collecting files innermost first. The fuel bounds the
descent depth; any fuel at least the tree height gives the Rust result. -/
def traceFromNode (index : Nat) : Nat → Node → List (List Char)
  | 0, n => [n.file]
  | fuel + 1, n =>
    match n.calls.find? (fun c => c.start_pos ≤ index && index ≤ c.end_pos) with
    | some c => traceFromNode index fuel c ++ [n.file]
    | none => [n.file]

/-- Models Log::trace_at: the reversed chain of files. -/
def Log.trace_at (log : Log) (fuel index : Nat) : List (List Char) :=
  (traceFromNode index fuel log.root_node).reverse

/-! ## Cursor arithmetic -/

theorem peakTok_nat (tokens : List Token) (cursor k : Nat) :
    peakTok tokens cursor (k : Int) = currentTok tokens (cursor + k) := by
  unfold peakTok currentTok
  congr 1
  omega

theorem peakTok_one (tokens : List Token) (cursor : Nat) :
    peakTok tokens cursor 1 = currentTok tokens (cursor + 1) := by
  unfold peakTok currentTok
  congr 1
  omega

theorem peakTok_two (tokens : List Token) (cursor : Nat) :
    peakTok tokens cursor 2 = currentTok tokens (cursor + 2) := by
  unfold peakTok currentTok
  congr 1
  omega

theorem peakTok_three (tokens : List Token) (cursor : Nat) :
    peakTok tokens cursor 3 = currentTok tokens (cursor + 3) := by
  unfold peakTok currentTok
  congr 1
  omega

theorem peakTok_four (tokens : List Token) (cursor : Nat) :
    peakTok tokens cursor 4 = currentTok tokens (cursor + 4) := by
  unfold peakTok currentTok
  congr 1
  omega

theorem peakTok_five (tokens : List Token) (cursor : Nat) :
    peakTok tokens cursor 5 = currentTok tokens (cursor + 5) := by
  unfold peakTok currentTok
  congr 1
  omega

theorem peakTok_neg_one (tokens : List Token) (cursor : Nat) :
    peakTok tokens cursor (-1) = currentTok tokens (cursor - 1) := by
  unfold peakTok currentTok
  congr 1
  omega

theorem peakTok_neg_two (tokens : List Token) (cursor : Nat) :
    peakTok tokens cursor (-2) = currentTok tokens (cursor - 2) := by
  unfold peakTok currentTok
  congr 1
  omega

theorem currentTok_of_lt (tokens : List Token) (cursor : Nat)
    (h : cursor < tokens.length) :
    currentTok tokens cursor = tokens.getD cursor defaultToken := by
  unfold currentTok
  congr 1
  omega

theorem consumeTok_eq_some (tokens : List Token) (cursor : Nat) (t : Token)
    (c' : Nat) (h : consumeTok tokens cursor = some (t, c')) :
    cursor < tokens.length ∧ t = tokens.getD cursor defaultToken ∧
      c' = cursor + 1 := by
  unfold consumeTok at h
  split at h
  · obtain ⟨h1, h2⟩ := Prod.mk.injEq .. ▸ (Option.some.injEq .. ▸ h)
    exact ⟨by assumption, h1.symm, h2.symm⟩
  · exact Option.noConfusion h

/-! ## Trace queries (claims C9 and C1) -/

theorem traceFromNode_last (index fuel : Nat) (n : Node) :
    ∃ l, traceFromNode index fuel n = l ++ [n.file] := by
  match fuel with
  | 0 => exact ⟨[], rfl⟩
  | fuel + 1 =>
    rcases hf : n.calls.find? (fun c => c.start_pos ≤ index && index ≤ c.end_pos)
      with _ | c
    · exact ⟨[], by simp [traceFromNode, hf]⟩
    · exact ⟨traceFromNode index fuel c, by simp [traceFromNode, hf]⟩

/-- C9: for every log and every offset whatsoever (inside or outside the
root range), trace_at returns a non-empty sequence whose first element is
the root file. -/
theorem trace_at_head (log : Log) (fuel index : Nat) :
    Log.trace_at log fuel index ≠ [] ∧
      (Log.trace_at log fuel index).head? = some log.root_node.file := by
  obtain ⟨l, hl⟩ := traceFromNode_last index fuel log.root_node
  unfold Log.trace_at
  rw [hl]
  constructor
  · simp
  · simp

/-- C1: evaluation at the failing input. The log "(./main.tex)\n" parses to
a root spanning offsets 0 to 11; offset 13 is row 2 column 1, outside the
root range, yet trace_at returns the root file instead of the empty
sequence that both the claim and the function documentation promise. -/
theorem trace_at_outside_root_eval :
    index "(./main.tex)\n".toList 2 1 = 13 ∧
      (parseSource "(./main.tex)\n".toList 50).map
          (fun log => (log.root_node.start_pos, log.root_node.end_pos,
            Log.trace_at log 5 13)) =
        some (0, 11, ["./main.tex".toList]) := by
  constructor
  · rfl
  · rfl

/-! ## Diagnostic message boundary (claim C5) -/

/-- C5 (amended): message consumption stops either at a RightParen seen at
paren level zero, which stays unconsumed (the final cursor rests on it), or
at two consecutive Newline tokens, of which only the first is consumed: the
final cursor rests on the second Newline of the pair. -/
theorem consumeDiagMsgLoop_boundary (tokens : List Token) :
    ∀ fuel cursor parenLevel c',
      consumeDiagMsgLoop tokens fuel cursor parenLevel = some c' →
      cursor ≤ c' ∧
        ((currentTok tokens c').kind = TokenKind.rightParen ∨
          (1 ≤ c' ∧ (currentTok tokens (c' - 1)).kind = TokenKind.newline ∧
            (currentTok tokens c').kind = TokenKind.newline)) := by
  intro fuel
  induction fuel with
  | zero =>
    intro cursor parenLevel c' h
    exact Option.noConfusion h
  | succ f ih =>
    intro cursor parenLevel c' h
    unfold consumeDiagMsgLoop at h
    split at h
    · split at h
      · have := ih (cursor + 1) (parenLevel + 1) c' h
        exact ⟨by omega, this.2⟩
      · exact Option.noConfusion h
    · split at h
      · split at h
        · have := ih (cursor + 1) (parenLevel - 1) c' h
          exact ⟨by omega, this.2⟩
        · exact Option.noConfusion h
      · obtain rfl : cursor = c' := Option.some.injEq .. ▸ h
        exact ⟨le_rfl, Or.inl (by assumption)⟩
    · split at h
      · split at h
        · obtain rfl : cursor + 1 = c' := Option.some.injEq .. ▸ h
          refine ⟨by omega, Or.inr ⟨by omega, ?_, ?_⟩⟩
          · simpa using (by assumption : (currentTok tokens cursor).kind =
              TokenKind.newline)
          · have hn : (peakTok tokens cursor 1).kind = TokenKind.newline := by
              assumption
            rw [peakTok_one] at hn
            exact hn
        · exact Option.noConfusion h
      · split at h
        · have := ih (cursor + 1) parenLevel c' h
          exact ⟨by omega, this.2⟩
        · exact Option.noConfusion h
    · split at h
      · have := ih (cursor + 1) parenLevel c' h
        exact ⟨by omega, this.2⟩
      · exact Option.noConfusion h

/-- Witness for the C5 boundary theorem at a concrete token stream. -/
theorem consumeDiagMsgLoop_boundary_witness :
    consumeDiagMsgLoop (tokenize "x\n\ny".toList)
        (tokenize "x\n\ny".toList).length 0 0 = some 2 ∧
      (0 ≤ 2 ∧
        ((currentTok (tokenize "x\n\ny".toList) 2).kind = TokenKind.rightParen ∨
          (1 ≤ 2 ∧
            (currentTok (tokenize "x\n\ny".toList) (2 - 1)).kind =
              TokenKind.newline ∧
            (currentTok (tokenize "x\n\ny".toList) 2).kind =
              TokenKind.newline))) :=
  ⟨rfl, consumeDiagMsgLoop_boundary (tokenize "x\n\ny".toList)
    (tokenize "x\n\ny".toList).length 0 0 2 rfl⟩

/-- C5 counterexample: on the token stream of "x\n\ny" message consumption
terminated by the newline pair ends with cursor 2, the index of the second
Newline, which is therefore not consumed; the claim would demand cursor 3,
past both newlines. -/
theorem diag_message_newline_pair_counterexample :
    consumeDiagMsgLoop (tokenize "x\n\ny".toList)
        (tokenize "x\n\ny".toList).length 0 0 = some 2 ∧
      (currentTok (tokenize "x\n\ny".toList) 2).kind = TokenKind.newline ∧
      ¬ (2 : Nat) = 3 := by
  refine ⟨rfl, rfl, by decide⟩

/-! ## Top-level parse and the prelude (claim C4) -/

/-- True exactly on Path token kinds, as the Rust if-let patterns test. -/
def TokenKind.isPathKind : TokenKind → Bool
  | TokenKind.path _ => true
  | _ => false

/-- C4 (amended): the top-level parse fails when the token stream contains
no LeftParen directly followed by a Path; a leading Path token on its own
is not fatal — it is rendered into the prelude and parsing continues (see
the accompanying counterexample for the non-failing leading-Path case). -/
theorem parseTopLoop_none_of_no_scope (tokens : List Token)
    (h : ∀ i, i < tokens.length →
      ¬(((tokens.getD i defaultToken).kind = TokenKind.leftParen) ∧
        (peakTok tokens i 1).kind.isPathKind = true)) :
    ∀ fuel cursor info, parseTopLoop tokens fuel cursor info = none := by
  intro fuel
  induction fuel with
  | zero => intro cursor info; rfl
  | succ f ih =>
    intro cursor info
    unfold parseTopLoop
    split
    · rename_i hk
      have hne : tokens ≠ [] := by
        intro he
        subst he
        simp [currentTok, defaultToken] at hk
      have hlen : 0 < tokens.length := List.length_pos.mpr hne
      have hi : min cursor (tokens.length - 1) < tokens.length := by omega
      have hcur : currentTok tokens cursor =
          tokens.getD (min cursor (tokens.length - 1)) defaultToken := rfl
      have hpe : peakTok tokens cursor 1 =
          peakTok tokens (min cursor (tokens.length - 1)) 1 := by
        unfold peakTok
        congr 1
        omega
      split
      · rename_i p hp
        exact absurd ⟨by rw [← hcur]; exact hk,
          by rw [← hpe, hp]; rfl⟩ (h (min cursor (tokens.length - 1)) hi)
      · split
        · rfl
        · exact ih _ _
    · rfl
    · split
      · rfl
      · exact ih _ _

/-- Witness for the amended C4 theorem on the token stream of "/x y",
which contains a leading Path but no file scope. -/
theorem parseTopLoop_none_witness :
    (∀ i, i < (tokenize "/x y".toList).length →
      ¬((((tokenize "/x y".toList).getD i defaultToken).kind =
          TokenKind.leftParen) ∧
        (peakTok (tokenize "/x y".toList) i 1).kind.isPathKind = true)) ∧
      parseTopLoop (tokenize "/x y".toList) 10 0 [] = none :=
  ⟨by decide, parseTopLoop_none_of_no_scope (tokenize "/x y".toList)
    (by decide) 10 0 []⟩

/-- C4 counterexample: a log whose first token is a Path parses
successfully; the path is accumulated into the prelude info and the later
scope becomes the root, so a leading Path is not fatal. -/
theorem leading_path_parses_counterexample :
    ((tokenize "/x (/y)".toList).getD 0 defaultToken).kind =
        TokenKind.path "/x".toList ∧
      (parseSource "/x (/y)".toList 20).map (fun log => log.info) =
        some "/x ".toList ∧
      (parseSource "/x (/y)".toList 20).isSome = true := by
  refine ⟨rfl, rfl, rfl⟩

/-! ## GenericError title capture (claim C6) -/

theorem titleLoop_spec (tokens : List Token) :
    ∀ fuel s e, titleLoop tokens fuel s = some e →
      s ≤ e ∧
        (∀ k, s ≤ k → k < e →
          ¬((currentTok tokens k).kind = TokenKind.newline ∨
            (currentTok tokens k).kind = TokenKind.eof)) ∧
        ((currentTok tokens e).kind = TokenKind.newline ∨
          (currentTok tokens e).kind = TokenKind.eof) := by
  intro fuel
  induction fuel with
  | zero => intro s e h; exact Option.noConfusion h
  | succ f ih =>
    intro s e h
    unfold titleLoop at h
    split at h
    · obtain rfl : s = e := Option.some.injEq .. ▸ h
      exact ⟨le_rfl, fun k h1 h2 => absurd rfl (by omega : ¬ k = k), Or.inl (by
        assumption)⟩
    · obtain rfl : s = e := Option.some.injEq .. ▸ h
      exact ⟨le_rfl, fun k h1 h2 => absurd rfl (by omega : ¬ k = k), Or.inr (by
        assumption)⟩
    · rename_i k0 hne1 hne2
      split at h
      · obtain ⟨h1, h2, h3⟩ := ih (s + 1) e h
        refine ⟨by omega, ?_, h3⟩
        intro k hk1 hk2
        rcases Nat.eq_or_lt_of_le hk1 with rfl | hlt
        · intro hcon
          rcases hcon with hcon | hcon
          · exact hne1 hcon
          · exact hne2 hcon
        · exact h2 k (by omega) hk2
      · exact Option.noConfusion h

/-- C6 (amended): for a recognised GenericError, the captured title is the
concatenated rendering of the tokens of the current line starting two
tokens after the exclamation mark — the token directly after the mark, in
well-formed logs the single separating space, is omitted — up to the first
Newline or EOF token, exclusive. -/
theorem genericError_title (tokens : List Token) (cursor : Nat)
    (d : TexDiagnostic) (c' : Nat)
    (hx : (currentTok tokens cursor).kind = TokenKind.exclamationMark)
    (h : consumeDiagIfDiag tokens cursor = some (some d, c')) :
    ∃ e, titleLoop tokens (tokens.length + 1) (cursor + 1) = some e ∧
      cursor + 2 ≤ e ∧
      (∀ k, cursor + 1 ≤ k → k < e →
        ¬((currentTok tokens k).kind = TokenKind.newline ∨
          (currentTok tokens k).kind = TokenKind.eof)) ∧
      ((currentTok tokens e).kind = TokenKind.newline ∨
        (currentTok tokens e).kind = TokenKind.eof) ∧
      d.kind = TexDiagnosticKind.genericError (sliceRender tokens (cursor + 2) e) := by
  unfold consumeDiagIfDiag at h
  split at h
  · simp at h
  · split at h
    · rename_i w hw
      rw [hx] at hw
      exact TokenKind.noConfusion hw
    · split at h
      · split at h
        · exact Option.noConfusion h
        · rename_i e hte
          split at h
          · rename_i hle
            split at h
            · exact Option.noConfusion h
            · split at h
              · exact Option.noConfusion h
              · simp only [Option.some.injEq, Prod.mk.injEq] at h
                obtain ⟨hd, hc⟩ := h
                obtain ⟨h1, h2, h3⟩ := titleLoop_spec tokens
                  (tokens.length + 1) (cursor + 1) e hte
                refine ⟨e, hte, hle, h2, h3, ?_⟩
                rw [← hd]
          · exact Option.noConfusion h
      · exact Option.noConfusion h
    · simp at h

/-- Witness for the amended C6 theorem on the token stream of the line
"!ab cd" preceded by a newline. -/
theorem genericError_title_witness :
    (currentTok (tokenize "\n!ab cd\n\nx)".toList) 1).kind =
        TokenKind.exclamationMark ∧
      consumeDiagIfDiag (tokenize "\n!ab cd\n\nx)".toList) 1 =
        some (some ⟨TexDiagnosticKind.genericError " cd".toList,
          "!ab cd".toList⟩, 6) ∧
      (∃ e, titleLoop (tokenize "\n!ab cd\n\nx)".toList)
          ((tokenize "\n!ab cd\n\nx)".toList).length + 1) (1 + 1) = some e ∧
        1 + 2 ≤ e ∧
        (∀ k, 1 + 1 ≤ k → k < e →
          ¬((currentTok (tokenize "\n!ab cd\n\nx)".toList) k).kind =
              TokenKind.newline ∨
            (currentTok (tokenize "\n!ab cd\n\nx)".toList) k).kind =
              TokenKind.eof)) ∧
        ((currentTok (tokenize "\n!ab cd\n\nx)".toList) e).kind =
            TokenKind.newline ∨
          (currentTok (tokenize "\n!ab cd\n\nx)".toList) e).kind =
            TokenKind.eof) ∧
        (⟨TexDiagnosticKind.genericError " cd".toList,
          "!ab cd".toList⟩ : TexDiagnostic).kind =
          TexDiagnosticKind.genericError
            (sliceRender (tokenize "\n!ab cd\n\nx)".toList) (1 + 2) e)) :=
  ⟨rfl, rfl, genericError_title (tokenize "\n!ab cd\n\nx)".toList) 1
    ⟨TexDiagnosticKind.genericError " cd".toList, "!ab cd".toList⟩ 6 rfl rfl⟩

/-- C6 counterexample: on the line "!ab cd" the text between the
exclamation mark and the newline is "ab cd", but the captured title is
" cd" — the first token after the mark (here the word "ab") is dropped, so
the title is not the full text between the mark and the end of line. -/
theorem genericError_title_counterexample :
    (consumeDiagIfDiag (tokenize "\n!ab cd\n\nx)".toList) 1).map
        (fun r => r.1.map (fun d => d.kind)) =
      some (some (TexDiagnosticKind.genericError " cd".toList)) ∧
      ¬ (" cd".toList = "ab cd".toList) := by
  constructor
  · rfl
  · decide

/-! ## A path after the opening paren flows into messages (claim C10) -/

theorem parseRunLoop_msgs_prefix (tokens : List Token) :
    ∀ fuel cursor startPos file msgs calls diags unclosed n c',
      parseRun tokens fuel
          (PCall.loop cursor startPos file msgs calls diags unclosed) =
        some (n, c') →
      (∃ r, n.messages = msgs ++ r) ∧ n.file = file := by
  intro fuel
  induction fuel with
  | zero => intro _ _ _ _ _ _ _ _ _ h; exact Option.noConfusion h
  | succ f ih =>
    intro cursor startPos file msgs calls diags unclosed n c' h
    have step : ∀ (K : List Char) c3 calls2 diags2 u2,
        parseRun tokens f
            (PCall.loop c3 startPos file (msgs ++ K) calls2 diags2 u2) =
          some (n, c') →
        (∃ r, n.messages = msgs ++ r) ∧ n.file = file := by
      intro K c3 calls2 diags2 u2 hh
      obtain ⟨⟨r, hr⟩, hf⟩ := ih _ _ _ _ _ _ _ _ _ hh
      exact ⟨⟨K ++ r, by rw [hr, List.append_assoc]⟩, hf⟩
    unfold parseRun at h
    split at h
    · exact Option.noConfusion h
    · split at h
      · split at h
        · split at h
          · exact Option.noConfusion h
          · exact ih _ _ _ _ _ _ _ _ _ h
        · split at h
          · exact Option.noConfusion h
          · exact step _ _ _ _ _ h
      · split at h
        · split at h
          · exact Option.noConfusion h
          · exact step _ _ _ _ _ h
        · split at h
          · exact Option.noConfusion h
          · simp only [Option.some.injEq, Prod.mk.injEq] at h
            obtain ⟨hn, hc⟩ := h
            rw [← hn]
            exact ⟨⟨[], by simp⟩, rfl⟩
      · split at h
        · exact Option.noConfusion h
        · exact step _ _ _ _ _ h
      · split at h
        · exact Option.noConfusion h
        · exact step _ _ _ _ _ h
      · split at h
        · exact Option.noConfusion h
        · exact step _ _ _ _ _ h
      · split at h
        · exact Option.noConfusion h
        · exact step _ _ _ _ _ h
      · split at h
        · exact Option.noConfusion h
        · exact step _ _ _ _ _ h
      · split at h
        · exact Option.noConfusion h
        · exact step _ _ _ _ _ h
      · exact Option.noConfusion h

/-- C10: when the opening LeftParen of a successfully parsed node is
directly followed by a Path token, the node reads that path as its file
without consuming the token, and the path string is then re-accumulated as
ordinary text: the node messages begin with it. -/
theorem node_path_into_messages (tokens : List Token) (fuel cursor : Nat)
    (p : List Char) (n : Node) (c' : Nat)
    (hp : (currentTok tokens (cursor + 1)).kind = TokenKind.path p)
    (h : parseNode tokens fuel cursor = some (n, c')) :
    n.file = p ∧ ∃ r, n.messages = p ++ r := by
  unfold parseNode at h
  match fuel, h with
  | fuel + 1, h =>
    unfold parseRun at h
    split at h
    · exact Option.noConfusion h
    · rename_i t c1 hct
      split at h
      · rename_i hlp
        obtain ⟨hcl, hteq, hc1⟩ := consumeTok_eq_some tokens cursor t c1 hct
        subst hc1
        rw [hp, show fileOf (TokenKind.path p) = p from rfl] at h
        have hprev : (peakTok tokens (cursor + 1) (-1)).kind =
            TokenKind.leftParen := by
          rw [peakTok_neg_one]
          have h1 : cursor + 1 - 1 = cursor := rfl
          rw [h1, currentTok_of_lt tokens cursor hcl, ← hteq]
          exact hlp
        have hdiagEq : consumeDiagIfDiag tokens (cursor + 1) =
            some (none, cursor + 1) := by
          unfold consumeDiagIfDiag
          rw [if_pos (by rw [hprev]; intro hcon; exact TokenKind.noConfusion hcon)]
        match fuel, h with
        | fuel + 1, h =>
          unfold parseRun at h
          split at h
          · rename_i hdiag
            rw [hdiagEq] at hdiag
            exact Option.noConfusion hdiag
          · rename_i od c2 hdiag
            rw [hdiagEq] at hdiag
            simp only [Option.some.injEq, Prod.mk.injEq] at hdiag
            obtain ⟨hod, hc2⟩ := hdiag
            subst hc2
            split at h
            · rename_i heq
              rw [hp] at heq
              exact TokenKind.noConfusion heq
            · rename_i heq
              rw [hp] at heq
              exact TokenKind.noConfusion heq
            · rename_i p2 heq
              rw [hp] at heq
              injection heq with hpp
              subst hpp
              split at h
              · exact Option.noConfusion h
              · obtain ⟨⟨r, hr⟩, hf⟩ :=
                  parseRunLoop_msgs_prefix tokens _ _ _ _ _ _ _ _ _ _ h
                exact ⟨hf, ⟨r, by simpa using hr⟩⟩
            · rename_i w heq
              rw [hp] at heq
              exact TokenKind.noConfusion heq
            · rename_i w heq
              rw [hp] at heq
              exact TokenKind.noConfusion heq
            · rename_i heq
              rw [hp] at heq
              exact TokenKind.noConfusion heq
            · rename_i ch heq
              rw [hp] at heq
              exact TokenKind.noConfusion heq
            · rename_i heq
              rw [hp] at heq
              exact TokenKind.noConfusion heq
            · rename_i heq
              rw [hp] at heq
              exact TokenKind.noConfusion heq
      · exact Option.noConfusion h

/-- Witness for C10 at the concrete input "(/a b)". -/
theorem node_path_into_messages_witness :
    (currentTok (tokenize "(/a b)".toList) (0 + 1)).kind =
        TokenKind.path "/a".toList ∧
      parseNode (tokenize "(/a b)".toList) 10 0 =
        some (⟨"/a".toList, "/a b".toList, 0, 5, [], []⟩, 5) ∧
      ((⟨"/a".toList, "/a b".toList, 0, 5, [], []⟩ : Node).file = "/a".toList ∧
        ∃ r, (⟨"/a".toList, "/a b".toList, 0, 5, [], []⟩ : Node).messages =
          "/a".toList ++ r) :=
  ⟨rfl, rfl, node_path_into_messages (tokenize "(/a b)".toList) 10 0
    "/a".toList ⟨"/a".toList, "/a b".toList, 0, 5, [], []⟩ 5 rfl rfl⟩

/-! ## Tree nesting (claim C8)

The nesting invariant is proved for token streams whose positions are
strictly increasing (as tokenize produces) and which contain no
ExclamationMark token: the GenericError recogniser is the one piece of the
parser that moves the cursor backwards, and the accompanying counterexample
shows that its backward walk can re-enter an already closed child scope and
break the invariant. -/

/-- Position of the token at an index. -/
def posAt (tokens : List Token) (i : Nat) : Nat :=
  (tokens.getD i defaultToken).pos

/-- Token positions are strictly increasing in index. -/
def PosMono (tokens : List Token) : Prop :=
  ∀ i j, i < j → j < tokens.length → posAt tokens i < posAt tokens j

/-- The stream contains no ExclamationMark token. -/
def NoBang (tokens : List Token) : Prop :=
  ∀ t ∈ tokens, t.kind ≠ TokenKind.exclamationMark

/-- The nesting invariant of the claim: positions are properly ordered,
children lie strictly inside their parent, and siblings are pairwise
disjoint (in opening order, each ends before the next starts). -/
inductive GoodNode : Node → Prop where
  | intro (n : Node)
      (hse : n.start_pos < n.end_pos)
      (hkids : ∀ c ∈ n.calls, GoodNode c)
      (hbound : ∀ c ∈ n.calls, n.start_pos < c.start_pos ∧ c.end_pos < n.end_pos)
      (hdisj : List.Pairwise (fun a b => a.end_pos < b.start_pos) n.calls) :
      GoodNode n

/-- Invariant carried through the parse_node loop: the children collected
so far are good, pairwise disjoint, and their offsets come from token
indices strictly between the opening index and the current cursor bound. -/
def CallsOK (tokens : List Token) (startIdx cbound : Nat)
    (calls : List Node) : Prop :=
  List.Pairwise (fun a b => a.end_pos < b.start_pos) calls ∧
  ∀ ch ∈ calls, GoodNode ch ∧
    ∃ i j, startIdx < i ∧ i < j ∧ j < cbound ∧ j < tokens.length ∧
      ch.start_pos = posAt tokens i ∧ ch.end_pos = posAt tokens j

theorem callsOK_mono (tokens : List Token) (s c c' : Nat) (calls : List Node)
    (h : CallsOK tokens s c calls) (hcc : c ≤ c') : CallsOK tokens s c' calls := by
  refine ⟨h.1, fun ch hch => ?_⟩
  obtain ⟨hg, i, j, h1, h2, h3, h4, h5, h6⟩ := h.2 ch hch
  exact ⟨hg, i, j, h1, h2, by omega, h4, h5, h6⟩

theorem currentTok_mem (tokens : List Token) (c : Nat) (hne : tokens ≠ []) :
    currentTok tokens c ∈ tokens := by
  unfold currentTok
  have hlen : 0 < tokens.length := List.length_pos.mpr hne
  have hidx : min c (tokens.length - 1) < tokens.length := by omega
  rw [List.getD_eq_getElem?_getD, List.getElem?_eq_getElem hidx]
  exact List.getElem_mem _

theorem consumeDiagMsgLoop_ge (tokens : List Token) :
    ∀ fuel cursor parenLevel e,
      consumeDiagMsgLoop tokens fuel cursor parenLevel = some e →
      cursor ≤ e := by
  intro fuel
  induction fuel with
  | zero => intro _ _ _ h; exact Option.noConfusion h
  | succ f ih =>
    intro cursor parenLevel e h
    unfold consumeDiagMsgLoop at h
    split at h
    · split at h
      · have := ih _ _ _ h
        omega
      · exact Option.noConfusion h
    · split at h
      · split at h
        · have := ih _ _ _ h
          omega
        · exact Option.noConfusion h
      · obtain rfl : cursor = e := Option.some.injEq .. ▸ h
        exact le_rfl
    · split at h
      · split at h
        · obtain rfl : cursor + 1 = e := Option.some.injEq .. ▸ h
          omega
        · exact Option.noConfusion h
      · split at h
        · have := ih _ _ _ h
          omega
        · exact Option.noConfusion h
    · split at h
      · have := ih _ _ _ h
        omega
      · exact Option.noConfusion h

theorem consumeDiagMsgLoop_le (tokens : List Token) :
    ∀ fuel cursor parenLevel e,
      consumeDiagMsgLoop tokens fuel cursor parenLevel = some e →
      cursor ≤ tokens.length → e ≤ tokens.length := by
  intro fuel
  induction fuel with
  | zero => intro _ _ _ h _; exact Option.noConfusion h
  | succ f ih =>
    intro cursor parenLevel e h hc
    unfold consumeDiagMsgLoop at h
    split at h
    · split at h
      · exact ih _ _ _ h (by omega)
      · exact Option.noConfusion h
    · split at h
      · split at h
        · exact ih _ _ _ h (by omega)
        · exact Option.noConfusion h
      · obtain rfl : cursor = e := Option.some.injEq .. ▸ h
        exact hc
    · split at h
      · split at h
        · obtain rfl : cursor + 1 = e := Option.some.injEq .. ▸ h
          omega
        · exact Option.noConfusion h
      · split at h
        · exact ih _ _ _ h (by omega)
        · exact Option.noConfusion h
    · split at h
      · exact ih _ _ _ h (by omega)
      · exact Option.noConfusion h

theorem consumeDiagnosticMessage_bounds (tokens : List Token) (cursor : Nat)
    (m : List Char) (c2 : Nat)
    (h : consumeDiagnosticMessage tokens cursor = some (m, c2)) :
    cursor ≤ c2 ∧ (cursor ≤ tokens.length → c2 ≤ tokens.length) := by
  unfold consumeDiagnosticMessage at h
  split at h
  · exact Option.noConfusion h
  · rename_i e he
    simp only [Option.some.injEq, Prod.mk.injEq] at h
    obtain ⟨_, rfl⟩ := h
    exact ⟨consumeDiagMsgLoop_ge tokens _ _ _ _ he,
      fun hc => consumeDiagMsgLoop_le tokens _ _ _ _ he hc⟩

theorem consumeDiagIfDiag_bounds (tokens : List Token)
    (hnb : NoBang tokens) (cursor : Nat) (od : Option TexDiagnostic) (c2 : Nat)
    (h : consumeDiagIfDiag tokens cursor = some (od, c2)) :
    cursor ≤ c2 ∧ (cursor ≤ tokens.length → c2 ≤ tokens.length) := by
  unfold consumeDiagIfDiag at h
  split at h
  · simp only [Option.some.injEq, Prod.mk.injEq] at h
    obtain ⟨_, rfl⟩ := h
    exact ⟨le_rfl, fun hc => hc⟩
  · split at h
    · -- word arm: every leaf is either the unchanged cursor or a message end
      rename_i w hw
      repeat' split at h
      all_goals
        first
        | exact Option.noConfusion h
        | (simp only [Option.some.injEq, Prod.mk.injEq] at h
           obtain ⟨_, rfl⟩ := h
           exact ⟨le_rfl, fun hc => hc⟩)
        | (rename_i hmsg
           simp only [Option.some.injEq, Prod.mk.injEq] at h
           obtain ⟨_, rfl⟩ := h
           exact consumeDiagnosticMessage_bounds tokens _ _ _ hmsg)
    · -- the exclamation mark cannot occur in a NoBang stream
      rename_i hx
      have hne : tokens ≠ [] := by
        intro he
        subst he
        simp [currentTok, defaultToken] at hx
      exact absurd hx (hnb _ (currentTok_mem tokens cursor hne))
    · simp only [Option.some.injEq, Prod.mk.injEq] at h
      obtain ⟨_, rfl⟩ := h
      exact ⟨le_rfl, fun hc => hc⟩

/-! Position monotonicity of the lexer output. -/

theorem nextToken_pos (c : Char) (rest : List Char) (pos : Nat) :
    (nextToken c rest pos).1.pos = pos := by
  unfold nextToken
  split_ifs <;> rfl

theorem tokenizeFuel_pos_lb :
    ∀ fuel (l : List Char) (pos : Nat) (t : Token),
      t ∈ tokenizeFuel fuel l pos → pos ≤ t.pos := by
  intro fuel
  induction fuel with
  | zero =>
    intro l pos t ht
    match l with
    | [] =>
      simp only [tokenizeFuel, List.mem_singleton] at ht
      rw [ht]
    | c :: rest => simp [tokenizeFuel] at ht
  | succ f ih =>
    intro l pos t ht
    match l with
    | [] =>
      simp only [tokenizeFuel, List.mem_singleton] at ht
      rw [ht]
    | c :: rest =>
      rcases hnt : nextToken c rest pos with ⟨t0, rest'⟩
      have hts : tokenizeFuel (f + 1) (c :: rest) pos =
          t0 :: tokenizeFuel f rest' (pos + (1 + (rest.length - rest'.length))) := by
        simp [tokenizeFuel, hnt]
      rw [hts, List.mem_cons] at ht
      rcases ht with rfl | ht
      · have := nextToken_pos c rest pos
        rw [hnt] at this
        exact le_of_eq this.symm
      · have := ih rest' (pos + (1 + (rest.length - rest'.length))) t ht
        omega

theorem tokenizeFuel_mono :
    ∀ fuel (l : List Char) (pos i j : Nat), i < j →
      j < (tokenizeFuel fuel l pos).length →
      posAt (tokenizeFuel fuel l pos) i < posAt (tokenizeFuel fuel l pos) j := by
  intro fuel
  induction fuel with
  | zero =>
    intro l pos i j hij hj
    match l with
    | [] =>
      simp only [tokenizeFuel, List.length_singleton] at hj
      omega
    | c :: rest => simp [tokenizeFuel] at hj
  | succ f ih =>
    intro l pos i j hij hj
    match l with
    | [] =>
      simp only [tokenizeFuel, List.length_singleton] at hj
      omega
    | c :: rest =>
      rcases hnt : nextToken c rest pos with ⟨t0, rest'⟩
      have hts : tokenizeFuel (f + 1) (c :: rest) pos =
          t0 :: tokenizeFuel f rest' (pos + (1 + (rest.length - rest'.length))) := by
        simp [tokenizeFuel, hnt]
      rw [hts] at hj ⊢
      match j, hj with
      | j' + 1, hj =>
        match i with
        | 0 =>
          have htpos : t0.pos = pos := by
            have := nextToken_pos c rest pos
            rw [hnt] at this
            exact this
          have hjlen : j' < (tokenizeFuel f rest'
              (pos + (1 + (rest.length - rest'.length)))).length := by
            simpa using hj
          have hmem : (tokenizeFuel f rest'
              (pos + (1 + (rest.length - rest'.length)))).getD j' defaultToken ∈
              tokenizeFuel f rest' (pos + (1 + (rest.length - rest'.length))) := by
            rw [List.getD_eq_getElem?_getD, List.getElem?_eq_getElem hjlen]
            exact List.getElem_mem _
          have hlb := tokenizeFuel_pos_lb f rest'
            (pos + (1 + (rest.length - rest'.length))) _ hmem
          simp only [posAt, List.getD_cons_zero, List.getD_cons_succ]
          omega
        | i' + 1 =>
          have hjlen : j' < (tokenizeFuel f rest'
              (pos + (1 + (rest.length - rest'.length)))).length := by
            simpa using hj
          have := ih rest' (pos + (1 + (rest.length - rest'.length))) i' j'
            (by omega) hjlen
          simpa only [posAt, List.getD_cons_succ] using this

theorem tokenize_posMono (l : List Char) : PosMono (tokenize l) := by
  intro i j hij hj
  exact tokenizeFuel_mono l.length l 0 i j hij hj

theorem parseRun_spec (tokens : List Token) (hmono : PosMono tokens)
    (hnb : NoBang tokens) :
    ∀ fuel,
      (∀ cursor n c', parseRun tokens fuel (PCall.node cursor) = some (n, c') →
        cursor < tokens.length ∧ cursor + 1 < c' ∧ c' ≤ tokens.length ∧
          c' - 1 < tokens.length ∧ n.start_pos = posAt tokens cursor ∧
          n.end_pos = posAt tokens (c' - 1) ∧ GoodNode n) ∧
      (∀ cursor startPos file msgs calls diags unclosed sIdx n c',
        sIdx < cursor → cursor ≤ tokens.length →
        startPos = posAt tokens sIdx →
        CallsOK tokens sIdx cursor calls →
        parseRun tokens fuel
            (PCall.loop cursor startPos file msgs calls diags unclosed) =
          some (n, c') →
        cursor ≤ c' - 1 ∧ cursor < c' ∧ c' ≤ tokens.length ∧
          c' - 1 < tokens.length ∧ n.start_pos = posAt tokens sIdx ∧
          n.end_pos = posAt tokens (c' - 1) ∧ GoodNode n) := by
  intro fuel
  induction fuel with
  | zero =>
    exact ⟨fun _ _ _ h => Option.noConfusion h,
      fun _ _ _ _ _ _ _ _ _ _ _ _ _ _ h => Option.noConfusion h⟩
  | succ f ih =>
    obtain ⟨ihNode, ihLoop⟩ := ih
    constructor
    · intro cursor n c' h
      unfold parseRun at h
      split at h
      · exact Option.noConfusion h
      · rename_i t c1 hct
        split at h
        · rename_i hlp
          obtain ⟨hcl, hteq, hc1⟩ := consumeTok_eq_some tokens cursor t c1 hct
          subst hc1
          have hsp : (currentTok tokens cursor).pos = posAt tokens cursor := by
            rw [currentTok_of_lt tokens cursor hcl]
            rfl
          obtain ⟨a1, a2, a3, a4, a5, a6, a7⟩ := ihLoop (cursor + 1) _ _ _ _ _ _
            cursor n c' (by omega) (by omega) hsp
            ⟨List.Pairwise.nil, fun ch hch => absurd hch (List.not_mem_nil ch)⟩ h
          exact ⟨hcl, a2, a3, a4, a5, a6, a7⟩
        · exact Option.noConfusion h
    · intro cursor startPos file msgs calls diags unclosed sIdx n c'
        hsx hclen hsp hco h
      unfold parseRun at h
      split at h
      · exact Option.noConfusion h
      · rename_i od c2 hdiag
        obtain ⟨hd1, hd2⟩ := consumeDiagIfDiag_bounds tokens hnb cursor od c2 hdiag
        have hc2len : c2 ≤ tokens.length := hd2 hclen
        have hs2 : sIdx < c2 := by omega
        have hco2 : CallsOK tokens sIdx c2 calls :=
          callsOK_mono tokens sIdx cursor c2 calls hco hd1
        have consumeStep : ∀ (t3 : Token) (c3 : Nat) msgs2 diags2 u2,
            consumeTok tokens c2 = some (t3, c3) →
            parseRun tokens f
                (PCall.loop c3 startPos file msgs2 calls diags2 u2) =
              some (n, c') →
            cursor ≤ c' - 1 ∧ cursor < c' ∧ c' ≤ tokens.length ∧
              c' - 1 < tokens.length ∧ n.start_pos = posAt tokens sIdx ∧
              n.end_pos = posAt tokens (c' - 1) ∧ GoodNode n := by
          intro t3 c3 msgs2 diags2 u2 hctk hh
          obtain ⟨hb1, hb2, hb3⟩ := consumeTok_eq_some tokens c2 t3 c3 hctk
          subst hb3
          obtain ⟨a1, a2, a3, a4, a5, a6, a7⟩ := ihLoop (c2 + 1) startPos file
            msgs2 calls diags2 u2 sIdx n c' (by omega) (by omega) hsp
            (callsOK_mono tokens sIdx c2 (c2 + 1) calls hco2 (by omega)) hh
          exact ⟨by omega, by omega, a3, a4, a5, a6, a7⟩
        split at h
        · -- LeftParen
          split at h
          · -- next is a Path: parse a child
            split at h
            · exact Option.noConfusion h
            · rename_i child c3 heqChild
              obtain ⟨b1, b2, b3, b4, b5, b6, b7⟩ := ihNode c2 child c3 heqChild
              have hcoNew : CallsOK tokens sIdx c3 (calls ++ [child]) := by
                constructor
                · rw [List.pairwise_append]
                  refine ⟨hco2.1, List.pairwise_singleton .., ?_⟩
                  intro a ha b hb
                  rw [List.mem_singleton] at hb
                  subst hb
                  obtain ⟨_, i, j, k1, k2, k3, k4, k5, k6⟩ := hco2.2 a ha
                  rw [k6, b5]
                  exact hmono j c2 (by omega) b1
                · intro ch hch
                  rw [List.mem_append, List.mem_singleton] at hch
                  rcases hch with hch | rfl
                  · obtain ⟨hg, i, j, k1, k2, k3, k4, k5, k6⟩ := hco2.2 ch hch
                    exact ⟨hg, i, j, k1, k2, by omega, k4, k5, k6⟩
                  · exact ⟨b7, c2, c3 - 1, by omega, by omega, by omega, b4,
                      b5, b6⟩
              obtain ⟨a1, a2, a3, a4, a5, a6, a7⟩ := ihLoop c3 _ _ _ _ _ _
                sIdx n c' (by omega) (by omega) hsp hcoNew h
              exact ⟨by omega, by omega, a3, a4, a5, a6, a7⟩
          · -- text paren
            split at h
            · exact Option.noConfusion h
            · rename_i t3 c3 hctk
              exact consumeStep t3 c3 _ _ _ hctk h
        · -- RightParen
          split at h
          · split at h
            · exact Option.noConfusion h
            · rename_i t3 c3 hctk
              exact consumeStep t3 c3 _ _ _ hctk h
          · split at h
            · exact Option.noConfusion h
            · rename_i endTok c3 hctk
              obtain ⟨hb1, hb2, hb3⟩ := consumeTok_eq_some tokens c2 endTok c3
                hctk
              subst hb3
              simp only [Option.some.injEq, Prod.mk.injEq] at h
              obtain ⟨hn, hc⟩ := h
              subst hc
              subst hn
              have hend : endTok.pos = posAt tokens c2 := by
                rw [hb2]
                rfl
              refine ⟨by omega, by omega, by omega, by omega, hsp, ?_, ?_⟩
              · have hc2' : c2 + 1 - 1 = c2 := rfl
                rw [hc2']
                exact hend
              · refine GoodNode.intro _ ?_ ?_ ?_ hco2.1
                · show startPos < endTok.pos
                  rw [hsp, hend]
                  exact hmono sIdx c2 (by omega) hb1
                · exact fun ch hch => (hco2.2 ch hch).1
                · intro ch hch
                  obtain ⟨_, i, j, k1, k2, k3, k4, k5, k6⟩ := hco2.2 ch hch
                  constructor
                  · show startPos < ch.start_pos
                    rw [hsp, k5]
                    exact hmono sIdx i (by omega) (by omega)
                  · show ch.end_pos < endTok.pos
                    rw [k6, hend]
                    exact hmono j c2 (by omega) hb1
        · -- Path token into messages
          split at h
          · exact Option.noConfusion h
          · rename_i t3 c3 hctk
            exact consumeStep t3 c3 _ _ _ hctk h
        · -- Word
          split at h
          · exact Option.noConfusion h
          · rename_i t3 c3 hctk
            exact consumeStep t3 c3 _ _ _ hctk h
        · -- Whitespace
          split at h
          · exact Option.noConfusion h
          · rename_i t3 c3 hctk
            exact consumeStep t3 c3 _ _ _ hctk h
        · -- ExclamationMark
          split at h
          · exact Option.noConfusion h
          · rename_i t3 c3 hctk
            exact consumeStep t3 c3 _ _ _ hctk h
        · -- Punctuation
          split at h
          · exact Option.noConfusion h
          · rename_i t3 c3 hctk
            exact consumeStep t3 c3 _ _ _ hctk h
        · -- Newline
          split at h
          · exact Option.noConfusion h
          · rename_i t3 c3 hctk
            exact consumeStep t3 c3 _ _ _ hctk h
        · -- EOF
          exact Option.noConfusion h

/-- C8 (amended): in every tree produced by a successful parse of a log
whose token stream contains no ExclamationMark (so no GenericError is
recognised - the GenericError backward walk is the one way the cursor moves
backwards), every node satisfies start_pos < end_pos, every child lies
strictly inside its parent, and siblings are pairwise disjoint. -/
theorem parse_tree_nesting (text : List Char) (fuel : Nat) (log : Log)
    (hnb : NoBang (tokenize text))
    (h : parseSource text fuel = some log) :
    GoodNode log.root_node := by
  unfold parseSource parse at h
  split at h
  · exact Option.noConfusion h
  · rename_i info c hTop
    split at h
    · exact Option.noConfusion h
    · rename_i root c' hRun
      obtain ⟨_, _, _, _, _, _, hGood⟩ :=
        (parseRun_spec (tokenize text) (tokenize_posMono text) hnb fuel).1
          c root c' hRun
      simp only [Option.some.injEq] at h
      rw [← h]
      exact hGood

/-- Witness for the amended C8 theorem on the log "(/a (/b x) y)". -/
theorem parse_tree_nesting_witness :
    NoBang (tokenize "(/a (/b x) y)".toList) ∧
      parseSource "(/a (/b x) y)".toList 30 =
        some ⟨[], "(/a (/b x) y)".toList,
          ⟨"/a".toList, "/a  y".toList, 0, 12,
            [⟨"/b".toList, "/b x".toList, 4, 9, [], []⟩], []⟩⟩ ∧
      GoodNode (⟨[], "(/a (/b x) y)".toList,
          ⟨"/a".toList, "/a  y".toList, 0, 12,
            [⟨"/b".toList, "/b x".toList, 4, 9, [], []⟩], []⟩⟩ : Log).root_node :=
  ⟨by unfold NoBang; decide, rfl,
    parse_tree_nesting "(/a (/b x) y)".toList 30 _
      (by unfold NoBang; decide) rfl⟩

/-- C8 counterexample: in the log "(/p (/c x)\n! e\n\n)" the GenericError
backward walk re-enters the already closed child scope and the parent then
closes at the child's own RightParen: both end at offset 9, so the child
does not end strictly before its parent. -/
theorem tree_nesting_counterexample :
    (parseSource "(/p (/c x)\n! e\n\n)".toList 30).map
        (fun log => (log.root_node.end_pos,
          log.root_node.calls.map (fun c => c.end_pos))) =
      some (9, [9]) ∧ ¬ (9 : Nat) < 9 := by
  refine ⟨rfl, by omega⟩

end Texlog
